import Mathlib

/-!
Shallow embedding of `gym_rlf/envs/delta_hedging_env.py`, the
delta-hedging reinforcement-learning environment: the insertion-sorted
shape log, the concavity-violation penalty, zero-rate Black-Scholes call
pricing, lognormal price simulation, and the per-step episode loop.

Real-valued quantities are modelled as rationals.  The numeric
primitives used by the source (`np.exp`, `math.log`, `math.sqrt`,
`scipy.stats.norm.cdf`, Python `round`) are external collaborators and
are modelled as oracle function parameters.
-/

namespace RLF

/-- Fixed configuration constants.  Modelled from the spec: the modules
`Parameters.py` (TickSize, OptionSize, T, S0, sigma_dh, kappa_dh,
PENALTY_WEIGHT, MAX_PENALTY) and `rlf_env.py` (MIN_PRICE, MAX_PRICE,
action_space_normalizer) are not under src/; the spec describes them as
fixed constants of the environment.  `L` is the episode horizon `T`
passed to the base-class constructor. -/
structure Params where
  TickSize : ℚ
  OptionSize : ℚ
  L : ℕ
  S0 : ℚ
  sigma : ℚ
  kappa : ℚ
  PENALTY_WEIGHT : ℚ
  MAX_PENALTY : ℚ
  MIN_PRICE : ℚ
  MAX_PRICE : ℚ
  action_space_normalizer : ℚ

/-- External numeric primitives used by the source (`np.exp`,
`math.log`, `math.sqrt`, `scipy.stats.norm.cdf`, Python `round`),
modelled as oracle function parameters. -/
structure Oracles where
  expf : ℚ → ℚ
  logf : ℚ → ℚ
  sqrtf : ℚ → ℚ
  cdf : ℚ → ℚ
  roundf : ℚ → ℤ

/-- Backward-shift loop of `insertion_sort`, acting on the reversed log:
the head of the argument list is the last element of the stored log.
Every entry whose state is strictly larger than `p`'s is shifted one
place right (kept before `p` in the reversed order) and `p` is placed at
the first admissible slot; returns the new reversed list together with
the forward (0-based) insertion index. -/
def insertBack (p : ℚ × ℚ) : List (ℚ × ℚ) → List (ℚ × ℚ) × ℕ
  | [] => ([p], 0)
  | q :: rest =>
    if p.1 < q.1 then
      let r := insertBack p rest
      (q :: r.1, r.2)
    else
      (p :: q :: rest, rest.length + 1)

/-- Embeds `insertion_sort(states, actions)`: the source appends the new
(state, action) pair to the parallel `states`/`actions` lists and then
restores sorted order by a single backward shift.  Here the two parallel
lists are one list of pairs, and the newly appended pair `p` is passed
separately from the previous log.  Returns the sorted list and the
insertion index `j` of `p`. -/
def insertion_sort (log : List (ℚ × ℚ)) (p : ℚ × ℚ) : List (ℚ × ℚ) × ℕ :=
  let r := insertBack p log.reverse
  (r.1.reverse, r.2)

/-- Embeds `func_property(s0, s1, s2, a0, a1, a2)`: the concavity
violation penalty of one anchored triple, whose state values are assumed
sorted `s0 ≤ s1 ≤ s2`. -/
def func_property (P : Params) (s0 s1 s2 a0 a1 a2 : ℚ) : ℚ :=
  if s1 = s0 ∨ s2 = s0 then 0
  else
    let grad1 := (a1 - a0) / (s1 - s0)
    let grad2 := (a2 - a0) / (s2 - s0)
    if grad1 ≥ grad2 then 0
    else min P.MAX_PENALTY (P.PENALTY_WEIGHT * (grad2 - grad1) ^ 2)

/-- Embeds `BSM_call_price_and_delta(K, tau, St, sigma)`: zero-rate
Black-Scholes call price and delta, `(0, 0)` at or past expiry. -/
def BSM_call_price_and_delta (O : Oracles) (K tau St sigma : ℚ) : ℚ × ℚ :=
  if tau ≤ 0 then (0, 0)
  else
    let numerator := O.logf (St / K) + (1/2 * sigma ^ 2) * tau
    let denominator := sigma * O.sqrtf tau
    let d1 := numerator / denominator
    let d2 := d1 - denominator
    (St * O.cdf d1 - K * O.cdf d2, O.cdf d1)

/-- Embeds `DeltaHedgingEnv._next_price`: one lognormal price computed
from the current step count and one standard-normal draw `rn`, clamped
into the price band. -/
def next_price (P : Params) (O : Oracles) (rn : ℚ) (step_counts : ℕ) : ℚ :=
  let x := -(1/2) * P.sigma ^ 2 * (step_counts : ℚ) + P.sigma * rn
  let p := P.S0 * O.expf x
  max (min p P.MAX_PRICE) P.MIN_PRICE

/-- Per-episode mutable state of `DeltaHedgingEnv`: the per-step arrays
indexed by step count, the step counter, and the shape log (the parallel
lists `_states` and `_actions`, kept here as one list of pairs). -/
structure EnvState where
  step_counts : ℕ
  prices : ℕ → ℚ
  option_prices : ℕ → ℚ
  positions : ℕ → ℚ
  costs : ℕ → ℚ
  profits : ℕ → ℚ
  rewards : ℕ → ℚ
  states_actions : List (ℚ × ℚ)

/-- Embeds `DeltaHedgingEnv._learn_func_property(func_property)` (with
the preceding appends of the new state and normalized action): inserts
the newest (state, action) pair into the sorted log, then accumulates
the anchored-triple penalties of the source's two loops and divides by
`num_data - 2`.  Returns the updated log and the penalty. -/
def learn_func_property (P : Params) (log : List (ℚ × ℚ)) (p : ℚ × ℚ) :
    List (ℚ × ℚ) × ℚ :=
  let r := insertion_sort log p
  let sa := r.1
  let j := r.2
  let num_data := sa.length
  if num_data ≤ 2 then (sa, 0)
  else
    let s := fun i => (sa.getD i (0, 0)).1
    let a := fun i => (sa.getD i (0, 0)).2
    let pen1 := (List.range' 1 (j - 1)).foldl
      (fun acc i => acc + func_property P (s 0) (s i) (s j) (a 0) (a i) (a j)) 0
    let pen2 := (List.range' (j + 1) (num_data - (j + 1))).foldl
      (fun acc i => acc + func_property P (s 0) (s j) (s i) (a 0) (a j) (a i)) 0
    (sa, (pen1 + pen2) / ((num_data : ℚ) - 2))

/-- Penalty of one `observe` call as the spec words it (section 4.4,
steps 2-5): zero for at most two entries, otherwise the sum of the
triple-evaluator values over the triples anchored at the log's first
element — `(s0, s_i, s_j)` for `i ∈ [1, j)` and `(s0, s_j, s_i)` for
`i ∈ [j+1, n)` — divided by `n - 2`. -/
def observe_penalty_spec (P : Params) (log : List (ℚ × ℚ)) (p : ℚ × ℚ) : ℚ :=
  let sa := (insertion_sort log p).1
  let j := (insertion_sort log p).2
  let n := sa.length
  let s := fun i => (sa.getD i (0, 0)).1
  let a := fun i => (sa.getD i (0, 0)).2
  if n ≤ 2 then 0
  else
    ((∑ i in Finset.Ico 1 j,
        func_property P (s 0) (s i) (s j) (a 0) (a i) (a j)) +
     (∑ i in Finset.Ico (j + 1) n,
        func_property P (s 0) (s j) (s i) (a 0) (a j) (a i)))
      / ((n : ℚ) - 2)

/-- Modelled from the spec: the base-class `RLFEnv.reset` (module
`rlf_env.py`, not under src/) zeroes the per-step arrays, resets the
step counter and clears the shape log; the `DeltaHedgingEnv.reset`
override (in src/) then sets `prices[0] = S0` and
`option_prices[0] = S0`. -/
def reset (P : Params) : EnvState :=
  { step_counts := 0
    prices := Function.update (fun _ => 0) 0 P.S0
    option_prices := Function.update (fun _ => 0) 0 P.S0
    positions := fun _ => 0
    costs := fun _ => 0
    profits := fun _ => 0
    rewards := fun _ => 0
    states_actions := [] }

/-- Embeds `DeltaHedgingEnv._get_state`: the observation triple
(position, time to maturity, price) at the current step count. -/
def get_state (P : Params) (e : EnvState) : ℚ × ℚ × ℚ :=
  (e.positions e.step_counts, (P.L : ℚ) - (e.step_counts : ℚ),
    e.prices e.step_counts)

/-- Embeds `DeltaHedgingEnv.step(action)`: one environment transition
consuming one normal draw `rn`.  Returns the successor state together
with the source's return values (observation, reward, done). -/
def step (P : Params) (O : Oracles) (rn : ℚ) (e : EnvState) (action : ℚ) :
    EnvState × (ℚ × ℚ × ℚ) × ℚ × Bool :=
  let ac : ℤ := O.roundf (action * P.action_space_normalizer)
  let old_pos := e.positions e.step_counts
  let old_price := e.prices e.step_counts
  let old_option_price := e.option_prices e.step_counts
  let t := e.step_counts + 1
  let done : Bool := decide (t = P.L)
  let new_pos := max (min (old_pos + (ac : ℚ)) P.OptionSize) (-P.OptionSize)
  let new_price := next_price P O rn t
  let new_option_price :=
    if done then old_option_price
    else (BSM_call_price_and_delta O P.S0 ((P.L : ℚ) - (t : ℚ)) new_price P.sigma).1
  let trade_size := |new_pos - old_pos|
  let cost := P.TickSize * (trade_size + 1/100 * trade_size ^ 2)
  let PnL := (new_price - old_price) * old_pos
    + (new_option_price - old_option_price) - cost
  let norm_ac : ℚ := if |old_pos| > 0 then (ac : ℚ) / old_pos else (ac : ℚ)
  let lf := learn_func_property P e.states_actions (new_price, norm_ac)
  let reward := PnL - 1/2 * P.kappa * PnL ^ 2 - lf.2
  let e' : EnvState :=
    { step_counts := t
      prices := Function.update e.prices t new_price
      option_prices := Function.update e.option_prices t new_option_price
      positions := Function.update e.positions t new_pos
      costs := Function.update e.costs t cost
      profits := Function.update e.profits t (PnL + cost)
      rewards := Function.update e.rewards t reward
      states_actions := lf.1 }
  (e', get_state P e', reward, done)

/-- Repeated environment transitions from `reset`:
`runSteps P O rns acts n` is the episode state after `n` calls of
`step`, where the call of rank `k` consumes the draw `rns k` and the
raw action `acts k`. -/
def runSteps (P : Params) (O : Oracles) (rns acts : ℕ → ℚ) : ℕ → EnvState
  | 0 => reset P
  | n + 1 => (step P O (rns n) (runSteps P O rns acts n) (acts n)).1

/-- Fallible variant of `BSM_call_price_and_delta`: Python float
division raises `ZeroDivisionError` on a zero divisor, so each of the
two explicit divisions of the source (`St / K` inside the logarithm
argument and `numerator / denominator`) yields `none` when its divisor
is 0; on every other input the result is the value of the total model.
The oracle primitives themselves stay total. -/
def BSM_call_price_and_delta_checked (O : Oracles) (K tau St sigma : ℚ) :
    Option (ℚ × ℚ) :=
  if tau ≤ 0 then some (0, 0)
  else if K = 0 then none
  else
    let numerator := O.logf (St / K) + (1/2 * sigma ^ 2) * tau
    let denominator := sigma * O.sqrtf tau
    if denominator = 0 then none
    else
      let d1 := numerator / denominator
      let d2 := d1 - denominator
      some (St * O.cdf d1 - K * O.cdf d2, O.cdf d1)

/-- Fallible variant of `step`: the only division of the step body that
can raise is the option repricing (the action-normalizing division is
guarded by `|old_pos| > 0`, and the penalty divisor `num_data - 2` is
only used when it is at least 1).  A `none` result models the call
raising `ZeroDivisionError`: no return value exists, and the arrays
partially written before the raise are not observable through this
model. -/
def step_checked (P : Params) (O : Oracles) (rn : ℚ) (e : EnvState)
    (action : ℚ) : Option (EnvState × (ℚ × ℚ × ℚ) × ℚ × Bool) :=
  let ac : ℤ := O.roundf (action * P.action_space_normalizer)
  let old_pos := e.positions e.step_counts
  let old_price := e.prices e.step_counts
  let old_option_price := e.option_prices e.step_counts
  let t := e.step_counts + 1
  let done : Bool := decide (t = P.L)
  let new_pos := max (min (old_pos + (ac : ℚ)) P.OptionSize) (-P.OptionSize)
  let new_price := next_price P O rn t
  let priced : Option ℚ :=
    if done then some old_option_price
    else Option.map Prod.fst
      (BSM_call_price_and_delta_checked O P.S0 ((P.L : ℚ) - (t : ℚ))
        new_price P.sigma)
  match priced with
  | none => none
  | some new_option_price =>
    let trade_size := |new_pos - old_pos|
    let cost := P.TickSize * (trade_size + 1/100 * trade_size ^ 2)
    let PnL := (new_price - old_price) * old_pos
      + (new_option_price - old_option_price) - cost
    let norm_ac : ℚ := if |old_pos| > 0 then (ac : ℚ) / old_pos
      else (ac : ℚ)
    let lf := learn_func_property P e.states_actions (new_price, norm_ac)
    let reward := PnL - 1/2 * P.kappa * PnL ^ 2 - lf.2
    let e' : EnvState :=
      { step_counts := t
        prices := Function.update e.prices t new_price
        option_prices := Function.update e.option_prices t new_option_price
        positions := Function.update e.positions t new_pos
        costs := Function.update e.costs t cost
        profits := Function.update e.profits t (PnL + cost)
        rewards := Function.update e.rewards t reward
        states_actions := lf.1 }
    some (e', get_state P e', reward, done)

/-- Fallible episode run: `none` from the first step call that raises
onwards. -/
def runSteps_checked (P : Params) (O : Oracles) (rns acts : ℕ → ℚ) :
    ℕ → Option EnvState
  | 0 => some (reset P)
  | n + 1 =>
    match runSteps_checked P O rns acts n with
    | none => none
    | some e => Option.map (fun out => out.1)
        (step_checked P O (rns n) e (acts n))

/-- Concrete test configuration used by the concrete-input theorems:
zero volatility, initial price 100, horizon 2. -/
def testParams : Params :=
  { TickSize := 1/10
    OptionSize := 10
    L := 2
    S0 := 100
    sigma := 0
    kappa := 0
    PENALTY_WEIGHT := 1
    MAX_PENALTY := 100
    MIN_PRICE := 1/10
    MAX_PRICE := 1000
    action_space_normalizer := 10 }

/-- Concrete oracle functions used by the concrete-input theorems. -/
def testOracles : Oracles :=
  { expf := fun _ => 1
    logf := fun _ => 0
    sqrtf := fun _ => 0
    cdf := fun _ => 1/2
    roundf := fun x => round x }

/-! ### Structure of the backward-shift insertion -/

/-- The backward shift splits the reversed log into the shifted entries
`A` (all strictly larger than `p`) and the untouched suffix `B`, placing
`p` between them; the returned index is `B.length`. -/
lemma insertBack_spec (p : ℚ × ℚ) (r : List (ℚ × ℚ)) :
    ∃ A B, r = A ++ B ∧ (insertBack p r).1 = A ++ p :: B ∧
      (insertBack p r).2 = B.length ∧ ∀ q ∈ A, p.1 < q.1 := by
  induction r with
  | nil => exact ⟨[], [], rfl, rfl, rfl, by simp⟩
  | cons q rest ih =>
    by_cases h : p.1 < q.1
    · obtain ⟨A, B, h1, h2, h3, h4⟩ := ih
      refine ⟨q :: A, B, by simp [h1], ?_, ?_, ?_⟩
      · simp [insertBack, h, h2]
      · simp [insertBack, h, h3]
      · intro x hx
        rcases List.mem_cons.1 hx with hx | hx
        · exact hx ▸ h
        · exact h4 x hx
    · exact ⟨[], q :: rest, rfl, by simp [insertBack, h],
        by simp [insertBack, h], by simp⟩

/-- Membership in the shifted list: exactly the old entries plus `p`. -/
lemma insertBack_mem (p x : ℚ × ℚ) (r : List (ℚ × ℚ)) :
    x ∈ (insertBack p r).1 ↔ x = p ∨ x ∈ r := by
  induction r with
  | nil => simp [insertBack]
  | cons q rest ih =>
    by_cases h : p.1 < q.1
    · simp only [insertBack, if_pos h, List.mem_cons, ih]
      tauto
    · simp only [insertBack, if_neg h, List.mem_cons]

/-- The shifted list has one more entry than the old one. -/
lemma insertBack_length (p : ℚ × ℚ) (r : List (ℚ × ℚ)) :
    (insertBack p r).1.length = r.length + 1 := by
  obtain ⟨A, B, h1, h2, _, _⟩ := insertBack_spec p r
  rw [h2, h1]
  simp
  omega

/-- The returned insertion index never exceeds the old length. -/
lemma insertBack_idx_le (p : ℚ × ℚ) (r : List (ℚ × ℚ)) :
    (insertBack p r).2 ≤ r.length := by
  obtain ⟨A, B, h1, _, h3, _⟩ := insertBack_spec p r
  rw [h3, h1]
  simp

/-- The backward shift keeps the reversed log sorted (non-increasing in
the state value). -/
lemma insertBack_sorted (p : ℚ × ℚ) (r : List (ℚ × ℚ))
    (h : r.Pairwise (fun a b : ℚ × ℚ => b.1 ≤ a.1)) :
    (insertBack p r).1.Pairwise (fun a b : ℚ × ℚ => b.1 ≤ a.1) := by
  induction r with
  | nil => simp [insertBack]
  | cons q rest ih =>
    rw [List.pairwise_cons] at h
    by_cases hpq : p.1 < q.1
    · simp only [insertBack, if_pos hpq]
      rw [List.pairwise_cons]
      refine ⟨?_, ih h.2⟩
      intro b hb
      rcases (insertBack_mem p b rest).1 hb with hb | hb
      · exact hb ▸ le_of_lt hpq
      · exact h.1 b hb
    · simp only [insertBack, if_neg hpq]
      rw [List.pairwise_cons]
      refine ⟨?_, List.pairwise_cons.2 h⟩
      intro b hb
      rcases List.mem_cons.1 hb with hb | hb
      · exact hb ▸ not_lt.1 hpq
      · exact le_trans (h.1 b hb) (not_lt.1 hpq)

/-- Inserting into the forward log yields a list one entry longer. -/
lemma insertion_sort_length (log : List (ℚ × ℚ)) (p : ℚ × ℚ) :
    (insertion_sort log p).1.length = log.length + 1 := by
  simp [insertion_sort, insertBack_length]

/-- The insertion index never exceeds the old length. -/
lemma insertion_sort_idx_le (log : List (ℚ × ℚ)) (p : ℚ × ℚ) :
    (insertion_sort log p).2 ≤ log.length := by
  simpa [insertion_sort] using insertBack_idx_le p log.reverse

/-- The entry found at the returned insertion index is the new pair. -/
lemma insertion_sort_getD (log : List (ℚ × ℚ)) (p : ℚ × ℚ) :
    (insertion_sort log p).1.getD (insertion_sort log p).2 (0, 0) = p := by
  obtain ⟨A, B, _, h2, h3, _⟩ := insertBack_spec p log.reverse
  have hrev : (insertion_sort log p).1 = B.reverse ++ p :: A.reverse := by
    simp [insertion_sort, h2]
  rw [hrev]
  show (B.reverse ++ p :: A.reverse).getD (insertion_sort log p).2 (0, 0) = p
  have hj : (insertion_sort log p).2 = B.reverse.length := by
    simp [insertion_sort, h3]
  rw [hj, List.getD_append_right _ _ _ _ (le_refl _)]
  simp

/-- Membership after insertion: the old entries plus the new pair. -/
lemma insertion_sort_mem (log : List (ℚ × ℚ)) (p x : ℚ × ℚ) :
    x ∈ (insertion_sort log p).1 ↔ x = p ∨ x ∈ log := by
  simp [insertion_sort, insertBack_mem]

/-- Insertion preserves the non-decreasing order of the state values. -/
lemma insertion_sort_sorted (log : List (ℚ × ℚ)) (p : ℚ × ℚ)
    (h : log.Pairwise (fun a b : ℚ × ℚ => a.1 ≤ b.1)) :
    (insertion_sort log p).1.Pairwise (fun a b : ℚ × ℚ => a.1 ≤ b.1) := by
  have hrev : log.reverse.Pairwise (fun a b : ℚ × ℚ => b.1 ≤ a.1) :=
    List.pairwise_reverse.2 h
  have := insertBack_sorted p log.reverse hrev
  simpa [insertion_sort, List.pairwise_reverse] using
    List.pairwise_reverse.2 this

/-- The log returned by `learn_func_property` is the inserted log. -/
lemma learn_func_property_fst (P : Params) (log : List (ℚ × ℚ)) (p : ℚ × ℚ) :
    (learn_func_property P log p).1 = (insertion_sort log p).1 := by
  by_cases h : (insertion_sort log p).1.length ≤ 2 <;>
    simp [learn_func_property, h]

/-! ### Folded sums of the penalty loops -/

/-- Folding `acc + f i` over `range' a b` is `init` plus the sum of `f`
over the interval `[a, a + b)`. -/
lemma foldl_add_range' (f : ℕ → ℚ) (b : ℕ) :
    ∀ (a : ℕ) (init : ℚ),
      (List.range' a b).foldl (fun acc i => acc + f i) init
        = init + ∑ i in Finset.Ico a (a + b), f i := by
  induction b with
  | zero => intro a init; simp
  | succ b ih =>
    intro a init
    rw [List.range'_succ, List.foldl_cons, ih (a + 1) (init + f a)]
    have h1 : a + 1 + b = a + (b + 1) := by omega
    rw [h1, Finset.sum_eq_sum_Ico_succ_bot (by omega : a < a + (b + 1))]
    ring

/-- Degenerate anchored triple with `s1 = s0`: zero penalty. -/
lemma func_property_deg_mid (P : Params) (s0 s2 a0 a1 a2 : ℚ) :
    func_property P s0 s0 s2 a0 a1 a2 = 0 := by
  simp [func_property]

/-- Degenerate anchored triple with `s2 = s0`: zero penalty. -/
lemma func_property_deg_top (P : Params) (s0 s1 a0 a1 a2 : ℚ) :
    func_property P s0 s1 s0 a0 a1 a2 = 0 := by
  simp [func_property]

/-- Folding `acc + 0` leaves the accumulator unchanged. -/
lemma foldl_add_const_zero (l : List ℕ) : ∀ init : ℚ,
    l.foldl (fun acc _ => acc + 0) init = init := by
  induction l with
  | nil => intro init; rfl
  | cons x xs ih => intro init; rw [List.foldl_cons, add_zero, ih]

/-- Entries read by `getD` at in-range indices belong to the list. -/
lemma getD_mem_of_lt (l : List (ℚ × ℚ)) (i : ℕ) (h : i < l.length) :
    l.getD i (0, 0) ∈ l := by
  rw [List.getD_eq_getElem l (0, 0) h]
  exact List.getElem_mem h

/-- Observing a pair whose state equals every state already in the log
yields penalty zero: every enumerated triple is degenerate. -/
lemma learn_func_property_const (P : Params) (log : List (ℚ × ℚ))
    (p : ℚ × ℚ) (h : ∀ q ∈ log, q.1 = p.1) :
    (learn_func_property P log p).2 = 0 := by
  by_cases h2 : (insertion_sort log p).1.length ≤ 2
  · simp [learn_func_property, h2]
  · have hall : ∀ q ∈ (insertion_sort log p).1, q.1 = p.1 := by
      intro q hq
      rcases (insertion_sort_mem log p q).1 hq with hq' | hq'
      · rw [hq']
      · exact h q hq'
    have hn3 : 2 < (insertion_sort log p).1.length := not_le.1 h2
    have hjlt : (insertion_sort log p).2 < (insertion_sort log p).1.length := by
      have := insertion_sort_idx_le log p
      have := insertion_sort_length log p
      omega
    have hs0 : ((insertion_sort log p).1.getD 0 (0, 0)).1 = p.1 :=
      hall _ (getD_mem_of_lt _ 0 (by omega))
    have hsj : ((insertion_sort log p).1.getD (insertion_sort log p).2 (0, 0)).1
        = p.1 := hall _ (getD_mem_of_lt _ _ hjlt)
    simp only [learn_func_property, h2, if_false, hs0, hsj,
      func_property_deg_mid, func_property_deg_top, foldl_add_const_zero]
    simp

/-- Shifting past every entry: a pair strictly below all stored states
is placed at index 0, in front of the whole log. -/
lemma insertBack_all_gt (p : ℚ × ℚ) :
    ∀ r : List (ℚ × ℚ), (∀ q ∈ r, p.1 < q.1) →
      insertBack p r = (r ++ [p], 0)
  | [], _ => rfl
  | q :: rest, h => by
    have hq : p.1 < q.1 := h q (List.mem_cons_self q rest)
    have hrest := insertBack_all_gt p rest
      (fun x hx => h x (List.mem_cons_of_mem q hx))
    simp [insertBack, hq, hrest]

/-- Inserting a pair strictly below all stored states prepends it and
returns index 0. -/
lemma insertion_sort_smallest (log : List (ℚ × ℚ)) (p : ℚ × ℚ)
    (h : ∀ q ∈ log, p.1 < q.1) :
    insertion_sort log p = (p :: log, 0) := by
  have := insertBack_all_gt p log.reverse
    (fun q hq => h q (List.mem_reverse.1 hq))
  simp [insertion_sort, this]

/-! ### Claims about the pure components -/

/-- C6: for every strike, spot, volatility, and every time to maturity
at most 0, `BSM_call_price_and_delta` returns exactly `(0, 0)`. -/
theorem C6_expired_option_value (O : Oracles) (K tau St sigma : ℚ)
    (h : tau ≤ 0) : BSM_call_price_and_delta O K tau St sigma = (0, 0) := by
  simp [BSM_call_price_and_delta, h]

/-- Witness for C6 at a concrete input. -/
theorem C6_expired_option_value_witness :
    (0 : ℚ) ≤ 0 ∧ BSM_call_price_and_delta testOracles 7 0 5 3 = (0, 0) :=
  ⟨le_refl 0, C6_expired_option_value testOracles 7 0 5 3 (le_refl 0)⟩

/-- C3: for sorted inputs `s0 ≤ s1 ≤ s2` (and a nonnegative penalty
cap), `func_property` returns 0 on degenerate triples, 0 on concave
slope pairs (`grad1 ≥ grad2`), the capped quadratic
`min MAX_PENALTY (WEIGHT * (grad2 - grad1)^2)` on convex ones; the
result never exceeds `MAX_PENALTY`, and in the convex case it equals
the uncapped quadratic whenever that is below the cap. -/
theorem C3_func_property_cases (P : Params) (s0 s1 s2 a0 a1 a2 : ℚ)
    (h01 : s0 ≤ s1) (h12 : s1 ≤ s2) (hM : 0 ≤ P.MAX_PENALTY) :
    (s1 = s0 ∨ s2 = s0 → func_property P s0 s1 s2 a0 a1 a2 = 0) ∧
    (s1 ≠ s0 → s2 ≠ s0 →
      ((a2 - a0) / (s2 - s0) ≤ (a1 - a0) / (s1 - s0) →
        func_property P s0 s1 s2 a0 a1 a2 = 0) ∧
      ((a1 - a0) / (s1 - s0) < (a2 - a0) / (s2 - s0) →
        func_property P s0 s1 s2 a0 a1 a2
          = min P.MAX_PENALTY (P.PENALTY_WEIGHT
              * ((a2 - a0) / (s2 - s0) - (a1 - a0) / (s1 - s0)) ^ 2) ∧
        (P.PENALTY_WEIGHT
              * ((a2 - a0) / (s2 - s0) - (a1 - a0) / (s1 - s0)) ^ 2
            < P.MAX_PENALTY →
          func_property P s0 s1 s2 a0 a1 a2
            = P.PENALTY_WEIGHT
                * ((a2 - a0) / (s2 - s0) - (a1 - a0) / (s1 - s0)) ^ 2))) ∧
    func_property P s0 s1 s2 a0 a1 a2 ≤ P.MAX_PENALTY := by
  by_cases hdeg : s1 = s0 ∨ s2 = s0
  · refine ⟨fun _ => by simp [func_property, hdeg], ?_, ?_⟩
    · intro hne1 hne2
      exact absurd hdeg (by tauto)
    · simp [func_property, hdeg, hM]
  · push_neg at hdeg
    by_cases hg : (a2 - a0) / (s2 - s0) ≤ (a1 - a0) / (s1 - s0)
    · refine ⟨fun hd => absurd hd (by tauto), ?_, ?_⟩
      · intro _ _
        refine ⟨fun _ => by simp [func_property, hdeg.1, hdeg.2, hg], ?_⟩
        intro hlt
        exact absurd hg (not_le.2 hlt)
      · simp [func_property, hdeg.1, hdeg.2, hg, hM]
    · have hlt := not_le.1 hg
      have hval : func_property P s0 s1 s2 a0 a1 a2
          = min P.MAX_PENALTY (P.PENALTY_WEIGHT
              * ((a2 - a0) / (s2 - s0) - (a1 - a0) / (s1 - s0)) ^ 2) := by
        simp [func_property, hdeg.1, hdeg.2, hg]
      refine ⟨fun hd => absurd hd (by tauto), ?_, ?_⟩
      · intro _ _
        refine ⟨fun hge => absurd hlt (not_lt.2 hge), fun _ => ⟨hval, ?_⟩⟩
        intro hcap
        rw [hval]
        exact min_eq_right (le_of_lt hcap)
      · rw [hval]
        exact min_le_left _ _

/-- Witness for C3 at a concrete convex triple. -/
theorem C3_func_property_cases_witness :
    (1 : ℚ) ≤ 2 ∧ (2 : ℚ) ≤ 3 ∧ (0 : ℚ) ≤ testParams.MAX_PENALTY ∧
    func_property testParams 1 2 3 0 0 2 ≤ testParams.MAX_PENALTY :=
  ⟨by norm_num, by norm_num, by norm_num [testParams],
    (C3_func_property_cases testParams 1 2 3 0 0 2 (by norm_num) (by norm_num)
      (by norm_num [testParams])).2.2⟩

/-- C2: the penalty computed by one `observe` call equals the spec's
anchored-triple mean `observe_penalty_spec`: zero when the log has at
most two entries, otherwise the sum of the evaluator over the triples
`(s0, s_i, s_j)` for `i ∈ [1, j)` and `(s0, s_j, s_i)` for
`i ∈ [j+1, n)`, divided by `n - 2`. -/
theorem C2_observe_penalty_refines_spec (P : Params)
    (log : List (ℚ × ℚ)) (p : ℚ × ℚ) :
    (learn_func_property P log p).2 = observe_penalty_spec P log p := by
  by_cases h2 : (insertion_sort log p).1.length ≤ 2
  · simp [learn_func_property, observe_penalty_spec, h2]
  · have hjn : (insertion_sort log p).2 + 1 ≤ (insertion_sort log p).1.length := by
      have := insertion_sort_idx_le log p
      have := insertion_sort_length log p
      omega
    simp only [learn_func_property, observe_penalty_spec, h2, if_false,
      foldl_add_range', zero_add]
    have hset1 : Finset.Ico 1 (1 + ((insertion_sort log p).2 - 1))
        = Finset.Ico 1 (insertion_sort log p).2 := by
      ext x
      simp only [Finset.mem_Ico]
      omega
    have hset2 : Finset.Ico ((insertion_sort log p).2 + 1)
          ((insertion_sort log p).2 + 1
            + ((insertion_sort log p).1.length - ((insertion_sort log p).2 + 1)))
        = Finset.Ico ((insertion_sort log p).2 + 1)
          (insertion_sort log p).1.length := by
      ext x
      simp only [Finset.mem_Ico]
      omega
    rw [hset1, hset2]

/-- C10: when the new pair's state is strictly smaller than every state
already in a log that then has at least three entries, the observe
penalty is 0 for all action values: the new element is both the anchor
`s0` and the middle point of every enumerated triple. -/
theorem C10_insert_at_front_zero_penalty (P : Params)
    (log : List (ℚ × ℚ)) (p : ℚ × ℚ)
    (hlt : ∀ q ∈ log, p.1 < q.1) (hn : 2 ≤ log.length) :
    (learn_func_property P log p).2 = 0 := by
  have hins := insertion_sort_smallest log p hlt
  have hfst : (insertion_sort log p).1 = p :: log := by rw [hins]
  have hsnd : (insertion_sort log p).2 = 0 := by rw [hins]
  have h2 : ¬((insertion_sort log p).1.length ≤ 2) := by
    rw [hfst]
    simpa using by omega
  have hs0 : ((insertion_sort log p).1.getD 0 (0, 0)).1 = p.1 := by
    rw [hfst]
    rfl
  simp only [learn_func_property, h2, if_false, hsnd, hs0,
    func_property_deg_mid, foldl_add_const_zero]
  simp

/-- Witness for C10 at a concrete log. -/
theorem C10_insert_at_front_zero_penalty_witness :
    (∀ q ∈ [((2 : ℚ), (7 : ℚ)), (3, 9)], (1 : ℚ) < q.1) ∧
    2 ≤ [((2 : ℚ), (7 : ℚ)), (3, 9)].length ∧
    (learn_func_property testParams [((2 : ℚ), (7 : ℚ)), (3, 9)] (1, 5)).2 = 0 :=
  ⟨by decide, by decide,
    C10_insert_at_front_zero_penalty testParams [((2 : ℚ), (7 : ℚ)), (3, 9)]
      (1, 5) (by decide) (by decide)⟩

/-! ### Projections of one step -/

/-- One step advances the counter by one. -/
lemma step_step_counts (P : Params) (O : Oracles) (rn : ℚ) (e : EnvState)
    (a : ℚ) : ((step P O rn e a).1).step_counts = e.step_counts + 1 := rfl

/-- One step records the freshly drawn clamped price at the new index. -/
lemma step_prices (P : Params) (O : Oracles) (rn : ℚ) (e : EnvState)
    (a : ℚ) : ((step P O rn e a).1).prices
      = Function.update e.prices (e.step_counts + 1)
          (next_price P O rn (e.step_counts + 1)) := rfl

/-- One step records the clamped position at the new index. -/
lemma step_positions (P : Params) (O : Oracles) (rn : ℚ) (e : EnvState)
    (a : ℚ) : ((step P O rn e a).1).positions
      = Function.update e.positions (e.step_counts + 1)
          (max (min (e.positions e.step_counts
              + ((O.roundf (a * P.action_space_normalizer) : ℤ) : ℚ))
            P.OptionSize) (-P.OptionSize)) := rfl

/-- One step replaces the shape log by the inserted log. -/
lemma step_states_actions (P : Params) (O : Oracles) (rn : ℚ)
    (e : EnvState) (a : ℚ) : ((step P O rn e a).1).states_actions
      = (learn_func_property P e.states_actions
          (next_price P O rn (e.step_counts + 1),
            if |e.positions e.step_counts| > 0
            then ((O.roundf (a * P.action_space_normalizer) : ℤ) : ℚ)
                / e.positions e.step_counts
            else ((O.roundf (a * P.action_space_normalizer) : ℤ) : ℚ))).1 := rfl

/-- The step counter of the run equals the number of calls. -/
lemma runSteps_step_counts (P : Params) (O : Oracles) (rns acts : ℕ → ℚ) :
    ∀ n, (runSteps P O rns acts n).step_counts = n := by
  intro n
  induction n with
  | zero => rfl
  | succ n ih => rw [runSteps, step_step_counts, ih]

/-- The run's shape log is sorted by state and has one entry per call. -/
lemma runSteps_log_sorted_length (P : Params) (O : Oracles)
    (rns acts : ℕ → ℚ) (n : ℕ) :
    (runSteps P O rns acts n).states_actions.Pairwise
        (fun q r : ℚ × ℚ => q.1 ≤ r.1) ∧
    (runSteps P O rns acts n).states_actions.length = n := by
  induction n with
  | zero => exact ⟨List.Pairwise.nil, rfl⟩
  | succ n ih =>
    rw [runSteps, step_states_actions, learn_func_property_fst]
    exact ⟨insertion_sort_sorted _ _ ih.1,
      by rw [insertion_sort_length, ih.2]⟩

/-! ### Claims about the episode loop -/

/-- C4: after every sequence of observe calls the shape log's states are
non-decreasing, the log has exactly one pair per call, and one further
insertion grows it by one pair, keeps it sorted, and returns the index
at which the new pair sits. -/
theorem C4_shape_log_sorted_invariant (P : Params) (O : Oracles)
    (rns acts : ℕ → ℚ) (n : ℕ) :
    (runSteps P O rns acts n).states_actions.Pairwise
        (fun q r : ℚ × ℚ => q.1 ≤ r.1) ∧
    (runSteps P O rns acts n).states_actions.length = n ∧
    ∀ p : ℚ × ℚ,
      (insertion_sort (runSteps P O rns acts n).states_actions p).1.length
          = n + 1 ∧
      (insertion_sort (runSteps P O rns acts n).states_actions p).1.Pairwise
          (fun q r : ℚ × ℚ => q.1 ≤ r.1) ∧
      (insertion_sort (runSteps P O rns acts n).states_actions p).1.getD
          (insertion_sort (runSteps P O rns acts n).states_actions p).2 (0, 0)
        = p := by
  obtain ⟨hs, hl⟩ := runSteps_log_sorted_length P O rns acts n
  exact ⟨hs, hl, fun p =>
    ⟨by rw [insertion_sort_length, hl], insertion_sort_sorted _ _ hs,
      insertion_sort_getD _ _⟩⟩

/-- C7: in every episode the recorded price stays inside
`[MIN_PRICE, MAX_PRICE]` at every step index reached so far, provided
the fixed configuration satisfies `MIN_PRICE ≤ S0 ≤ MAX_PRICE`. -/
theorem C7_price_bounds (P : Params) (O : Oracles) (rns acts : ℕ → ℚ)
    (hS0l : P.MIN_PRICE ≤ P.S0) (hS0r : P.S0 ≤ P.MAX_PRICE)
    (hmm : P.MIN_PRICE ≤ P.MAX_PRICE) (n : ℕ) :
    ∀ t, t ≤ n → P.MIN_PRICE ≤ (runSteps P O rns acts n).prices t ∧
      (runSteps P O rns acts n).prices t ≤ P.MAX_PRICE := by
  induction n with
  | zero =>
    intro t ht
    have h0 : t = 0 := Nat.le_zero.1 ht
    subst h0
    have h : (runSteps P O rns acts 0).prices 0 = P.S0 := by
      simp [runSteps, reset]
    rw [h]
    exact ⟨hS0l, hS0r⟩
  | succ n ih =>
    intro t ht
    rw [runSteps, step_prices, runSteps_step_counts]
    by_cases h : t = n + 1
    · subst h
      rw [Function.update_same]
      simp only [next_price]
      exact ⟨le_max_right _ _, max_le (min_le_right _ _) hmm⟩
    · rw [Function.update_noteq h]
      exact ih t (by omega)

/-- Witness for C7 at the concrete zero-volatility run. -/
theorem C7_price_bounds_witness :
    testParams.MIN_PRICE ≤ testParams.S0 ∧
    testParams.S0 ≤ testParams.MAX_PRICE ∧
    testParams.MIN_PRICE ≤ testParams.MAX_PRICE ∧
    (testParams.MIN_PRICE
        ≤ (runSteps testParams testOracles (fun _ => 0) (fun _ => 0) 2).prices 1 ∧
      (runSteps testParams testOracles (fun _ => 0) (fun _ => 0) 2).prices 1
        ≤ testParams.MAX_PRICE) :=
  ⟨by norm_num [testParams], by norm_num [testParams], by norm_num [testParams],
    C7_price_bounds testParams testOracles (fun _ => 0) (fun _ => 0)
      (by norm_num [testParams]) (by norm_num [testParams])
      (by norm_num [testParams]) 2 1 (by omega)⟩

/-- C8: in every episode and for every action sequence the recorded
position stays inside `[-OptionSize, OptionSize]` at every step index
reached so far, provided `OptionSize` is nonnegative. -/
theorem C8_position_clamp (P : Params) (O : Oracles) (rns acts : ℕ → ℚ)
    (hOS : 0 ≤ P.OptionSize) (n : ℕ) :
    ∀ t, t ≤ n → -P.OptionSize ≤ (runSteps P O rns acts n).positions t ∧
      (runSteps P O rns acts n).positions t ≤ P.OptionSize := by
  induction n with
  | zero =>
    intro t ht
    have h0 : t = 0 := Nat.le_zero.1 ht
    subst h0
    have h : (runSteps P O rns acts 0).positions 0 = 0 := rfl
    rw [h]
    exact ⟨neg_nonpos.2 hOS, hOS⟩
  | succ n ih =>
    intro t ht
    rw [runSteps, step_positions, runSteps_step_counts]
    by_cases h : t = n + 1
    · subst h
      rw [Function.update_same]
      exact ⟨le_max_right _ _, max_le (min_le_right _ _) (neg_le_self hOS)⟩
    · rw [Function.update_noteq h]
      exact ih t (by omega)

/-- Witness for C8 at the concrete zero-volatility run. -/
theorem C8_position_clamp_witness :
    (0 : ℚ) ≤ testParams.OptionSize ∧
    (-testParams.OptionSize
        ≤ (runSteps testParams testOracles (fun _ => 0) (fun _ => 0) 1).positions 1 ∧
      (runSteps testParams testOracles (fun _ => 0) (fun _ => 0) 1).positions 1
        ≤ testParams.OptionSize) :=
  ⟨by norm_num [testParams],
    C8_position_clamp testParams testOracles (fun _ => 0) (fun _ => 0)
      (by norm_num [testParams]) 1 1 (by omega)⟩

/-- C9: the `done` flag returned by the call of rank `n` (which moves
the counter to `n + 1`) is true exactly when the counter first reaches
the horizon `L` — never on an earlier call and never on a later call of
the same episode. -/
theorem C9_done_exactly_at_horizon (P : Params) (O : Oracles)
    (rns acts : ℕ → ℚ) (n : ℕ) :
    (step P O (rns n) (runSteps P O rns acts n) (acts n)).2.2.2 = true
      ↔ n + 1 = P.L := by
  have h : (step P O (rns n) (runSteps P O rns acts n) (acts n)).2.2.2
      = decide ((runSteps P O rns acts n).step_counts + 1 = P.L) := rfl
  rw [h, runSteps_step_counts]
  exact decide_eq_true_iff

/-- C5: each step records `profit[t] = PnL + cost` and
`reward[t] = PnL - 0.5 * kappa * PnL^2 - penalty` for
`PnL = (newPrice - oldPrice) * oldPos + (newValue - oldValue) - cost`,
and returns exactly `reward[t]`. -/
theorem C5_step_pnl_accounting (P : Params) (O : Oracles) (rn a : ℚ)
    (e : EnvState) :
    (step P O rn e a).1.profits (e.step_counts + 1)
      = (((step P O rn e a).1.prices (e.step_counts + 1)
            - e.prices e.step_counts) * e.positions e.step_counts
          + ((step P O rn e a).1.option_prices (e.step_counts + 1)
              - e.option_prices e.step_counts)
          - (step P O rn e a).1.costs (e.step_counts + 1))
        + (step P O rn e a).1.costs (e.step_counts + 1) ∧
    (step P O rn e a).1.rewards (e.step_counts + 1)
      = (((step P O rn e a).1.prices (e.step_counts + 1)
            - e.prices e.step_counts) * e.positions e.step_counts
          + ((step P O rn e a).1.option_prices (e.step_counts + 1)
              - e.option_prices e.step_counts)
          - (step P O rn e a).1.costs (e.step_counts + 1))
        - 1/2 * P.kappa
          * (((step P O rn e a).1.prices (e.step_counts + 1)
                - e.prices e.step_counts) * e.positions e.step_counts
              + ((step P O rn e a).1.option_prices (e.step_counts + 1)
                  - e.option_prices e.step_counts)
              - (step P O rn e a).1.costs (e.step_counts + 1)) ^ 2
        - (learn_func_property P e.states_actions
            ((step P O rn e a).1.prices (e.step_counts + 1),
              if |e.positions e.step_counts| > 0
              then ((O.roundf (a * P.action_space_normalizer) : ℤ) : ℚ)
                  / e.positions e.step_counts
              else ((O.roundf (a * P.action_space_normalizer) : ℤ) : ℚ))).2 ∧
    (step P O rn e a).2.2.1 = (step P O rn e a).1.rewards (e.step_counts + 1) := by
  refine ⟨?_, ?_, ?_⟩ <;>
    simp [step, Function.update_same]

/-! ### The zero-volatility episode -/

/-- With zero volatility and spot equal to strike, the embedded pricing
formula yields 0: the denominator `sigma * sqrt(tau)` vanishes, so both
quantiles coincide (in the source this division raises
`ZeroDivisionError`; total division by zero is 0 here). -/
lemma BSM_call_sigma_zero (O : Oracles) (K tau : ℚ) :
    (BSM_call_price_and_delta O K tau K 0).1 = 0 := by
  by_cases h : tau ≤ 0 <;> simp [BSM_call_price_and_delta, h]

/-- One step records the trading cost of the clamped trade at the new
index. -/
lemma step_costs (P : Params) (O : Oracles) (rn : ℚ) (e : EnvState)
    (a : ℚ) : ((step P O rn e a).1).costs
      = Function.update e.costs (e.step_counts + 1)
          (P.TickSize * (|max (min (e.positions e.step_counts
                + ((O.roundf (a * P.action_space_normalizer) : ℤ) : ℚ))
              P.OptionSize) (-P.OptionSize) - e.positions e.step_counts|
            + 1/100 * |max (min (e.positions e.step_counts
                + ((O.roundf (a * P.action_space_normalizer) : ℤ) : ℚ))
              P.OptionSize) (-P.OptionSize)
                - e.positions e.step_counts| ^ 2)) := rfl

/-- One step records the option value at the new index: the previous
value when the episode just ended, the Black-Scholes price otherwise. -/
lemma step_option_prices (P : Params) (O : Oracles) (rn : ℚ)
    (e : EnvState) (a : ℚ) : ((step P O rn e a).1).option_prices
      = Function.update e.option_prices (e.step_counts + 1)
          (if decide (e.step_counts + 1 = P.L) = true
           then e.option_prices e.step_counts
           else (BSM_call_price_and_delta O P.S0
               ((P.L : ℚ) - ((e.step_counts + 1 : ℕ) : ℚ))
               (next_price P O rn (e.step_counts + 1)) P.sigma).1) := rfl

/-- Characterization of one step under zero volatility, initial price
100, and raw action 0, from a state whose current position is 0 and
current price is 100. -/
lemma step_sigma0 (P : Params) (O : Oracles) (rn : ℚ) (e : EnvState)
    (hσ : P.sigma = 0) (hS0 : P.S0 = 100)
    (h1 : P.MIN_PRICE ≤ 100) (h2 : (100 : ℚ) ≤ P.MAX_PRICE)
    (hOS : 0 ≤ P.OptionSize) (hround : O.roundf 0 = 0)
    (hexp : O.expf 0 = 1)
    (hpos : e.positions e.step_counts = 0)
    (hpr : e.prices e.step_counts = 100) :
    ((step P O rn e 0).1).prices
        = Function.update e.prices (e.step_counts + 1) 100 ∧
    ((step P O rn e 0).1).positions
        = Function.update e.positions (e.step_counts + 1) 0 ∧
    ((step P O rn e 0).1).costs
        = Function.update e.costs (e.step_counts + 1) 0 ∧
    ((step P O rn e 0).1).option_prices
        = Function.update e.option_prices (e.step_counts + 1)
            (if e.step_counts + 1 = P.L then e.option_prices e.step_counts
             else 0) ∧
    ((step P O rn e 0).1).rewards
        = Function.update e.rewards (e.step_counts + 1)
            (((if e.step_counts + 1 = P.L then e.option_prices e.step_counts
                  else 0) - e.option_prices e.step_counts)
              - 1/2 * P.kappa
                * ((if e.step_counts + 1 = P.L
                      then e.option_prices e.step_counts else 0)
                    - e.option_prices e.step_counts) ^ 2
              - (learn_func_property P e.states_actions (100, 0)).2) ∧
    ((step P O rn e 0).1).states_actions
        = (insertion_sort e.states_actions (100, 0)).1 := by
  have hac : O.roundf (0 * P.action_space_normalizer) = 0 := by
    rw [zero_mul, hround]
  have hnp : next_price P O rn (e.step_counts + 1) = 100 := by
    have hx : -(1/2) * P.sigma ^ 2 * ((e.step_counts + 1 : ℕ) : ℚ)
        + P.sigma * rn = 0 := by
      rw [hσ]
      ring
    simp only [next_price, hx, hexp, mul_one, hS0]
    rw [min_eq_left h2, max_eq_left h1]
  have hnpos : max (min (e.positions e.step_counts
      + ((O.roundf (0 * P.action_space_normalizer) : ℤ) : ℚ)) P.OptionSize)
      (-P.OptionSize) = 0 := by
    rw [hac, hpos]
    simp only [Int.cast_zero, add_zero]
    rw [min_eq_left hOS, max_eq_left (neg_nonpos.2 hOS)]
  have hbsm : (BSM_call_price_and_delta O P.S0
      ((P.L : ℚ) - ((e.step_counts + 1 : ℕ) : ℚ))
      (next_price P O rn (e.step_counts + 1)) P.sigma).1 = 0 := by
    rw [hσ, hS0, hnp]
    exact BSM_call_sigma_zero O 100 _
  refine ⟨?_, ?_, ?_, ?_, ?_, ?_⟩
  · rw [step_prices, hnp]
  · rw [step_positions, hnpos]
  · rw [step_costs]
    rw [hnpos, hpos]
    norm_num
  · rw [step_option_prices]
    simp only [hbsm, decide_eq_true_eq]
  · have hval : (step P O rn e 0).2.2.1
        = ((if e.step_counts + 1 = P.L then e.option_prices e.step_counts
              else 0) - e.option_prices e.step_counts)
          - 1/2 * P.kappa
            * ((if e.step_counts + 1 = P.L
                  then e.option_prices e.step_counts else 0)
                - e.option_prices e.step_counts) ^ 2
          - (learn_func_property P e.states_actions (100, 0)).2 := by
      simp only [step]
      rw [hbsm, hnp, hpr, hpos, hac]
      simp only [Int.cast_zero, add_zero, zero_add, sub_self, abs_zero,
        gt_iff_lt, lt_self_iff_false, if_false, decide_eq_true_eq,
        min_eq_left hOS, max_eq_left (neg_nonpos.2 hOS)]
      split_ifs <;> ring
    have hstore : ((step P O rn e 0).1).rewards
        = Function.update e.rewards (e.step_counts + 1)
            ((step P O rn e 0).2.2.1) := rfl
    rw [hstore, hval]
  · rw [step_states_actions, learn_func_property_fst, hnp, hpos]
    simp [hac, hround]

/-- Full characterization of the zero-volatility, zero-action episode:
prices stay at 100, positions and costs stay 0, the option value drops
to 0 after the first step (because the degenerate pricing denominator
makes both quantiles coincide) and is carried over at the final step,
every shape-log state is 100, and the reward is 0 at every step except
step 1 of a multi-step episode, where it is `-100 - 5000 * kappa`. -/
lemma sigma0_run (P : Params) (O : Oracles) (rns acts : ℕ → ℚ)
    (hσ : P.sigma = 0) (hS0 : P.S0 = 100)
    (h1 : P.MIN_PRICE ≤ 100) (h2 : (100 : ℚ) ≤ P.MAX_PRICE)
    (hOS : 0 ≤ P.OptionSize) (hround : O.roundf 0 = 0)
    (hexp : O.expf 0 = 1) (hacts : ∀ k, acts k = 0) :
    ∀ n, n ≤ P.L →
      (∀ t, t ≤ n → (runSteps P O rns acts n).prices t = 100) ∧
      (∀ t, t ≤ n → (runSteps P O rns acts n).positions t = 0) ∧
      (∀ t, t ≤ n → (runSteps P O rns acts n).costs t = 0) ∧
      (∀ t, t ≤ n → (runSteps P O rns acts n).option_prices t
          = if t = 0 ∨ (t = P.L ∧ P.L = 1) then 100 else 0) ∧
      (∀ t, 1 ≤ t → t ≤ n → (runSteps P O rns acts n).rewards t
          = if t = 1 ∧ t < P.L then -100 - 5000 * P.kappa else 0) ∧
      (∀ q ∈ (runSteps P O rns acts n).states_actions, q.1 = 100) := by
  intro n
  induction n with
  | zero =>
    intro _
    refine ⟨?_, ?_, ?_, ?_, ?_, ?_⟩
    · intro t ht
      have h0 : t = 0 := by omega
      subst h0
      simp [runSteps, reset, hS0]
    · intro t ht
      have h0 : t = 0 := by omega
      subst h0
      rfl
    · intro t ht
      have h0 : t = 0 := by omega
      subst h0
      rfl
    · intro t ht
      have h0 : t = 0 := by omega
      subst h0
      simp [runSteps, reset, hS0]
    · intro t ht1 ht2
      omega
    · intro q hq
      exact absurd hq (List.not_mem_nil q)
  | succ n ih =>
    intro hn1
    obtain ⟨ihp, ihpos, ihc, ihv, ihr, ihlog⟩ := ih (by omega)
    have hsc : (runSteps P O rns acts n).step_counts = n :=
      runSteps_step_counts P O rns acts n
    have hkey := step_sigma0 P O (rns n) (runSteps P O rns acts n)
      hσ hS0 h1 h2 hOS hround hexp
      (by rw [hsc]; exact ihpos n (le_refl n))
      (by rw [hsc]; exact ihp n (le_refl n))
    rw [hsc] at hkey
    obtain ⟨hkp, hkpos, hkc, hkv, hkr, hklog⟩ := hkey
    have hrun : runSteps P O rns acts (n + 1)
        = (step P O (rns n) (runSteps P O rns acts n) 0).1 := by
      rw [runSteps, hacts n]
    refine ⟨?_, ?_, ?_, ?_, ?_, ?_⟩
    · intro t ht
      rw [hrun, hkp]
      by_cases h : t = n + 1
      · subst h
        rw [Function.update_same]
      · rw [Function.update_noteq h]
        exact ihp t (by omega)
    · intro t ht
      rw [hrun, hkpos]
      by_cases h : t = n + 1
      · subst h
        rw [Function.update_same]
      · rw [Function.update_noteq h]
        exact ihpos t (by omega)
    · intro t ht
      rw [hrun, hkc]
      by_cases h : t = n + 1
      · subst h
        rw [Function.update_same]
      · rw [Function.update_noteq h]
        exact ihc t (by omega)
    · intro t ht
      rw [hrun, hkv]
      by_cases h : t = n + 1
      · subst h
        rw [Function.update_same, ihv n (le_refl n)]
        have hne : (n + 1 = 0 ∨ (n + 1 = P.L ∧ P.L = 1))
            ↔ (n + 1 = P.L ∧ P.L = 1) := by omega
        rw [if_congr hne rfl rfl]
        split_ifs <;> first | rfl | omega
      · rw [Function.update_noteq h]
        exact ihv t (by omega)
    · intro t ht1 ht2
      rw [hrun, hkr]
      by_cases h : t = n + 1
      · subst h
        rw [Function.update_same]
        have hpen : (learn_func_property P
            (runSteps P O rns acts n).states_actions (100, 0)).2 = 0 :=
          learn_func_property_const P _ _ (fun q hq => ihlog q hq)
        rw [hpen, ihv n (le_refl n)]
        split_ifs <;> first | omega | ring
      · rw [Function.update_noteq h]
        exact ihr t ht1 (by omega)
    · intro q hq
      rw [hrun, hklog] at hq
      rcases (insertion_sort_mem _ _ q).1 hq with h | h
      · rw [h]
      · exact ihlog q h

/-! ### The raising path of the zero-volatility episode -/

/-- The checked pricer agrees with the total model whenever it does not
raise. -/
lemma BSM_checked_agrees (O : Oracles) (K tau St sigma : ℚ) (v : ℚ × ℚ)
    (h : BSM_call_price_and_delta_checked O K tau St sigma = some v) :
    BSM_call_price_and_delta O K tau St sigma = v := by
  by_cases h1 : tau ≤ 0
  · simp only [BSM_call_price_and_delta_checked, h1, if_true,
      Option.some.injEq] at h
    simp [BSM_call_price_and_delta, h1, h]
  · by_cases h2 : K = 0
    · simp [BSM_call_price_and_delta_checked, h1, h2] at h
    · by_cases h3 : sigma * O.sqrtf tau = 0
      · simp [BSM_call_price_and_delta_checked, h1, h2, h3] at h
      · simp only [BSM_call_price_and_delta_checked, h1, h2, h3, if_false,
          Option.some.injEq] at h
        simp only [BSM_call_price_and_delta, h1, if_false]
        exact h

/-- A checked step that does not raise returns exactly the total
model's step. -/
lemma step_checked_some (P : Params) (O : Oracles) (rn : ℚ)
    (e : EnvState) (a : ℚ) (out : EnvState × (ℚ × ℚ × ℚ) × ℚ × Bool)
    (h : step_checked P O rn e a = some out) :
    step P O rn e a = out := by
  cases hb : decide (e.step_counts + 1 = P.L) with
  | true =>
    simp only [step_checked, hb, if_true] at h
    simp only [Option.some.injEq] at h
    simp only [step, hb, if_true]
    exact h
  | false =>
    simp only [step_checked, hb] at h
    cases hbsm : BSM_call_price_and_delta_checked O P.S0
        ((P.L : ℚ) - ((e.step_counts : ℚ) + 1))
        (next_price P O rn (e.step_counts + 1)) P.sigma with
    | none => simp [hbsm] at h
    | some v =>
      push_cast at h
      simp only [hbsm, Option.map_some', Option.some.injEq] at h
      simp only [step, hb, Bool.false_eq_true, if_false]
      push_cast
      rw [BSM_checked_agrees O P.S0 _ _ P.sigma v hbsm]
      exact h

/-- A checked run that does not raise returns exactly the total model's
run. -/
lemma runSteps_checked_some (P : Params) (O : Oracles)
    (rns acts : ℕ → ℚ) : ∀ n e,
    runSteps_checked P O rns acts n = some e →
    runSteps P O rns acts n = e := by
  intro n
  induction n with
  | zero =>
    intro e h
    simp only [runSteps_checked, Option.some.injEq] at h
    rw [runSteps, h]
  | succ n ih =>
    intro e h
    cases hrec : runSteps_checked P O rns acts n with
    | none => rw [runSteps_checked, hrec] at h; exact absurd h (by simp)
    | some e0 =>
      have hsucc : runSteps_checked P O rns acts (n + 1)
          = Option.map (fun out => out.1)
              (step_checked P O (rns n) e0 (acts n)) := by
        rw [runSteps_checked, hrec]
      rw [hsucc] at h
      cases hst : step_checked P O (rns n) e0 (acts n) with
      | none => rw [hst] at h; exact absurd h (by simp)
      | some out =>
        rw [hst] at h
        simp only [Option.map_some', Option.some.injEq] at h
        rw [runSteps, ih e0 hrec, step_checked_some P O (rns n) e0
          (acts n) out hst, h]

/-- Once a step has raised, every continuation of the run stays
raised. -/
lemma runSteps_checked_none (P : Params) (O : Oracles)
    (rns acts : ℕ → ℚ) (n : ℕ)
    (h : runSteps_checked P O rns acts n = none) :
    ∀ m, n ≤ m → runSteps_checked P O rns acts m = none := by
  intro m
  induction m with
  | zero =>
    intro hm
    have h0 : n = 0 := by omega
    exact h0 ▸ h
  | succ m ih =>
    intro hm
    by_cases hnm : n = m + 1
    · exact hnm ▸ h
    · rw [runSteps_checked, ih (by omega)]

/-- A non-terminal step of a zero-volatility, strike-100 episode
raises: the repricing divides by `sigma * sqrt(tau) = 0`. -/
lemma step_checked_sigma0_none (P : Params) (O : Oracles) (rn : ℚ)
    (e : EnvState) (a : ℚ) (hσ : P.sigma = 0) (hS0 : P.S0 = 100)
    (hnd : e.step_counts + 1 < P.L) :
    step_checked P O rn e a = none := by
  have hdone : decide (e.step_counts + 1 = P.L) = false := by
    simp only [decide_eq_false_iff_not]
    omega
  have htau : ¬(((P.L : ℚ) - ((e.step_counts + 1 : ℕ) : ℚ)) ≤ 0) := by
    push_neg
    have hlt : ((e.step_counts + 1 : ℕ) : ℚ) < (P.L : ℚ) := by
      exact_mod_cast hnd
    linarith
  have hbsm : BSM_call_price_and_delta_checked O P.S0
      ((P.L : ℚ) - ((e.step_counts + 1 : ℕ) : ℚ))
      (next_price P O rn (e.step_counts + 1)) P.sigma = none := by
    rw [hσ, hS0]
    simp only [BSM_call_price_and_delta_checked, htau, if_false, zero_mul]
    norm_num
  simp only [step_checked, hdone, Bool.false_eq_true, if_false, hbsm,
    Option.map_none']

/-- A terminal step (the counter reaches `L`) never reprices, hence
never raises, and returns the total model's step. -/
lemma step_checked_done (P : Params) (O : Oracles) (rn : ℚ)
    (e : EnvState) (a : ℚ) (hd : e.step_counts + 1 = P.L) :
    step_checked P O rn e a = some (step P O rn e a) := by
  have hdone : decide (e.step_counts + 1 = P.L) = true := by
    simp [hd]
  simp only [step_checked, step, hdone, if_true]

/-- C1 counterexample: in the concrete zero-volatility episode
(`sigma = 0`, `S0 = 100`, horizon `L = 2`, action 0 at every step) the
very first step call raises `ZeroDivisionError`: the option is repriced
by `BSM_call_price_and_delta` with `sigma = 0`, whose denominator
`sigma * sqrt(tau)` is 0.  The episode aborts before recording any
reward, so no step satisfies the claimed `reward = 0` — the claim's
scenario never completes a single step. -/
theorem C1_sigma_zero_raises_counterexample :
    runSteps_checked testParams testOracles (fun _ => 0) (fun _ => 0) 1
      = none := by
  have h1 : runSteps_checked testParams testOracles (fun _ => 0)
      (fun _ => 0) 1
      = Option.map (fun out => out.1)
          (step_checked testParams testOracles 0 (reset testParams) 0) :=
    rfl
  rw [h1, step_checked_sigma0_none testParams testOracles 0
    (reset testParams) 0 rfl rfl (by norm_num [reset, testParams])]
  rfl

/-- C1 amended: in a zero-volatility, initial-price-100 episode with
action 0 at every step, the behavior depends on the horizon.  For
`L ≥ 2` the first step call already raises `ZeroDivisionError` in the
option repricing (denominator `sigma * sqrt(tau) = 0`), so the episode
aborts with no recorded reward and every longer run stays aborted.  For
`L = 1` no repricing happens (the terminal step carries the option value
forward), the single step completes, and the claim's values hold: price
100 at both indices, position 0, cost 0, and reward 0 (the shape penalty
is 0). -/
theorem C1_sigma_zero_episode_checked (P : Params) (O : Oracles)
    (rns acts : ℕ → ℚ) (hσ : P.sigma = 0) (hS0 : P.S0 = 100)
    (h1 : P.MIN_PRICE ≤ 100) (h2 : (100 : ℚ) ≤ P.MAX_PRICE)
    (hOS : 0 ≤ P.OptionSize) (hround : O.roundf 0 = 0)
    (hexp : O.expf 0 = 1) (hacts : ∀ k, acts k = 0) :
    (2 ≤ P.L → ∀ n, 1 ≤ n →
      runSteps_checked P O rns acts n = none) ∧
    (P.L = 1 →
      runSteps_checked P O rns acts 1 = some (runSteps P O rns acts 1) ∧
      (∀ t, t ≤ 1 → (runSteps P O rns acts 1).prices t = 100) ∧
      (∀ t, t ≤ 1 → (runSteps P O rns acts 1).positions t = 0) ∧
      (∀ t, t ≤ 1 → (runSteps P O rns acts 1).costs t = 0) ∧
      (runSteps P O rns acts 1).rewards 1 = 0) := by
  constructor
  · intro hL n hn
    have hfirst : runSteps_checked P O rns acts 1 = none := by
      have hx : runSteps_checked P O rns acts 1
          = Option.map (fun out => out.1)
              (step_checked P O (rns 0) (reset P) (acts 0)) := rfl
      rw [hx, step_checked_sigma0_none P O (rns 0) (reset P) (acts 0)
        hσ hS0 (by simp only [reset]; omega)]
      rfl
    exact runSteps_checked_none P O rns acts 1 hfirst n hn
  · intro hL1
    have hd : (reset P).step_counts + 1 = P.L := by
      simp [reset, hL1]
    have hrun1 : runSteps_checked P O rns acts 1
        = some (runSteps P O rns acts 1) := by
      have hx : runSteps_checked P O rns acts 1
          = Option.map (fun out => out.1)
              (step_checked P O (rns 0) (reset P) (acts 0)) := rfl
      rw [hx, step_checked_done P O (rns 0) (reset P) (acts 0) hd]
      rfl
    obtain ⟨hp, hpos, hc, _, hr, _⟩ :=
      sigma0_run P O rns acts hσ hS0 h1 h2 hOS hround hexp hacts 1
        (by omega)
    refine ⟨hrun1, hp, hpos, hc, ?_⟩
    rw [hr 1 (le_refl 1) (le_refl 1), if_neg (by omega)]

/-- Witness for the amended C1 at the concrete configuration
(horizon 2): the aborted-episode branch. -/
theorem C1_sigma_zero_episode_checked_witness :
    testParams.sigma = 0 ∧ testParams.S0 = 100 ∧
    testParams.MIN_PRICE ≤ 100 ∧ (100 : ℚ) ≤ testParams.MAX_PRICE ∧
    (0 : ℚ) ≤ testParams.OptionSize ∧ testOracles.roundf 0 = 0 ∧
    testOracles.expf 0 = 1 ∧ 2 ≤ testParams.L ∧
    (∀ n, 1 ≤ n → runSteps_checked testParams testOracles
        (fun _ => 0) (fun _ => 0) n = none) :=
  ⟨rfl, rfl, by norm_num [testParams], by norm_num [testParams],
    by norm_num [testParams], by simp [testOracles], rfl,
    by norm_num [testParams],
    (C1_sigma_zero_episode_checked testParams testOracles (fun _ => 0)
      (fun _ => 0) rfl rfl (by norm_num [testParams])
      (by norm_num [testParams]) (by norm_num [testParams])
      (by simp [testOracles]) rfl (fun _ => rfl)).1
      (by norm_num [testParams])⟩

end RLF

